import Mathlib

/-
  Verification development for the voronoi-hex repository.

  The embedding below translates the code of `src/topology.py`,
  `src/simplicialHomology.py` and `src/game.py` into Lean.

  Modelling conventions:
  * Python `pyrsistent` persistent sets (`pset`) are modelled as `Finset`
    when only the set value matters (`closure`, outputs of the derivation
    functions), and as order-carrying `List`s where the code observably
    depends on iteration order (`first` on a pset in `faces_from_edges`);
    iteration order of a Python set/pset is unspecified and can depend on
    construction history, so an input pset is embedded as the list of its
    elements in iteration order.
  * `numpy` matrices of `int8` entries are modelled as integer matrices
    (`IMat`): explicit row/column counts plus a total entry function that
    is zero outside the stated bounds.  Entries are only ever -1, 0, 1, so
    no overflow modelling is needed.
  * `np.linalg.matrix_rank` with tolerance `1e-5` on these small integer
    matrices is modelled as the exact rank over `ℚ`, computed by Gaussian
    elimination (`rankQ`).
  * Python set iteration order (in `ksimplices`' deduplication and in
    `integerVertices`' vertex enumeration) is unspecified; the model fixes
    first-occurrence order.  Every property proved below is invariant
    under the enumeration order.
-/

namespace VoronoiHex

/-- A simplex as the code manipulates it inside `simplicialHomology.py`:
a list of vertex labels. -/
abbrev Simplex := List ℕ

/-- A complex in list form: the `lists_from_complex` image of a pset of
simplices (one list entry per simplex, in iteration order). -/
abbrev Cplx := List Simplex

/-! ## topology.py -/

/-- The list of windowed edge psets built inside `edges_from_cycle`:
the first `len(c)` sliding windows of the infinite cyclic iterator over
`c` are exactly the pairs `(c[i], c[(i+1) % len(c)])`, i.e.
`c.zip (c.rotate 1)`, each turned into a two-element set. -/
def edgeList (c : List ℕ) : List (Finset ℕ) :=
  (c.zip (c.rotate 1)).map (fun p => ({p.1, p.2} : Finset ℕ))

/-- `edges_from_cycle(c)` from `src/topology.py`:
`pipe(c, cycle, sliding_window(2), take(len(c)), map(pset), pset)`. -/
def edges_from_cycle (c : List ℕ) : Finset (Finset ℕ) :=
  (edgeList c).toFinset

/-- `faces_from_edges(es)` from `src/topology.py`:
`v0 = first(first(es))`; keep the edges not containing `v0` and adjoin
`v0` to each.  The input pset of psets is embedded as a list of lists in
iteration order, since `first` observes that order. -/
def faces_from_edges (es : List (List ℕ)) : Finset (Finset ℕ) :=
  let v0 : ℕ := (es.headD []).headD 0
  ((es.filter (fun t => decide (v0 ∉ t))).map
    (fun t => insert v0 t.toFinset)).toFinset

/-- `more_itertools.first(iterable)` / `toolz.first`: the first element
in iteration order, raising `StopIteration` on an empty iterable.  The
failure is modelled as `none`. -/
def firstElem {α : Type} : List α → Option α
  | [] => none
  | a :: _ => some a

/-- The apex computation `first(first(es))` of `faces_from_edges`, with
its failure path made explicit: `none` models the generic
`StopIteration` the code raises when `es`, or its first edge, is empty.
On every other input it returns the vertex that `faces_from_edges`'s
total model reads via `headD`. -/
def apexOf (es : List (List ℕ)) : Option ℕ :=
  (firstElem es).bind firstElem

/-- `closure(xs)` from `src/topology.py`:
`pipe(xs, map(powerset), concat, map(pset), pset)` — the union of the
powersets of the member simplices (`more_itertools.powerset` includes the
empty subset). -/
def closure (xs : Finset (Finset ℕ)) : Finset (Finset ℕ) :=
  xs.biUnion Finset.powerset

/-! ## simplicialHomology.py -/

/-- `ksimplices(toplexes, k, relative)` from `src/simplicialHomology.py`:
all `(k+1)`-element combinations of each toplex (combinations preserve
the toplex's element order, i.e. are sublists), minus the simplices of
`relative`, deduplicated.  Python materialises this through `set`, whose
iteration order is unspecified; the model keeps first-occurrence order. -/
def ksimplices (toplexes : Cplx) (k : ℕ) (relative : Cplx) : Cplx :=
  ((toplexes.flatMap (List.sublistsLen (k + 1))).filter
    (fun s => decide (s ∉ relative))).dedup

/-- The coefficient list of `boundary`: `coefLst = [1, -1, 1, -1, ...]`,
so position `i` (the face omitting vertex `i`) carries sign `(-1)^i`. -/
def coefLst (i : ℕ) : ℤ := if i % 2 = 0 then 1 else -1

/-- One column-building loop of `boundary`: for the `k`-simplex `splx`
(of length `k+1`) iterate `i = 0, …, k` over the faces `splx.eraseIdx i`
(the code's `rowKey` built from the reversed index combinations), and
assign sign `coefLst i` into the row holding that face.  Python assigns
into the matrix, so a later matching `i` overwrites an earlier one; the
fold reproduces that last-write semantics. -/
def entryFold (k : ℕ) (splx row : Simplex) : ℤ :=
  (List.range (k + 1)).foldl
    (fun acc i => if splx.eraseIdx i = row then coefLst i else acc) 0

/-- An integer matrix with explicit shape, as produced by `boundary`:
`entry` is total and returns 0 outside the stated bounds. -/
structure IMat where
  rows : ℕ
  cols : ℕ
  entry : ℕ → ℕ → ℤ

/-- The `np.zeros((0, cols))` matrix returned by `boundary`'s degenerate
branch. -/
def zerosMat (cols : ℕ) : IMat := ⟨0, cols, fun _ _ => 0⟩

/-- `boundary(toplexes, k, relative)` from `src/simplicialHomology.py`.
If `k ≤ 0` or either chain is empty the result is `np.zeros((0, |kchain|))`;
otherwise rows are indexed by the `(k-1)`-chain, columns by the `k`-chain,
and each column is filled by the assignment loop `entryFold`.  A face that
falls outside the `(k-1)`-chain (`km1Dict.get` returning `-1`) contributes
nothing, which `entryFold` reproduces because no row equals it.  The
`km1chain` the code threads from the previous call equals `ksimplices
toplexes (k-1) relative`, which the model recomputes.
The nondegenerate branch is split out as `boundaryMatrix`: rows indexed
by `km1chain`, columns by `kchain`, each column filled by the assignment
loop `entryFold` at dimension `k`. -/
def boundaryMatrix (km1chain kchain : Cplx) (k : ℕ) : IMat :=
  ⟨km1chain.length, kchain.length, fun r c =>
    if r < km1chain.length ∧ c < kchain.length then
      entryFold k (kchain.getD c []) (km1chain.getD r [])
    else 0⟩

def boundary : Cplx → ℕ → Cplx → IMat
  | toplexes, 0, relative => zerosMat (ksimplices toplexes 0 relative).length
  | toplexes, k + 1, relative =>
    if ksimplices toplexes (k + 1) relative = [] ∨
        ksimplices toplexes k relative = [] then
      zerosMat (ksimplices toplexes (k + 1) relative).length
    else
      boundaryMatrix (ksimplices toplexes k relative)
        (ksimplices toplexes (k + 1) relative) (k + 1)

/-- One Gaussian elimination step: subtract the multiple
`(head r / head p)` of the pivot row `p` from `r`, dropping the leading
column. -/
def reduceRow (p r : List ℚ) : List ℚ :=
  List.zipWith (fun x y => x - (r.headD 0 / p.headD 0) * y) r.tail p.tail

/-- Exact rank of a rational matrix (list of rows) by Gaussian
elimination on the leading column; this is the model of
`np.linalg.matrix_rank(_, tol=1e-5)` on the small integer boundary
matrices.  The first argument is the column count. -/
def rankQ : ℕ → List (List ℚ) → ℕ
  | 0, _ => 0
  | c + 1, rows =>
    match rows.find? (fun r => decide (r.headD 0 ≠ 0)) with
    | none => rankQ c (rows.map List.tail)
    | some p => rankQ c ((rows.erase p).map (reduceRow p)) + 1

/-- The rows of an `IMat` as rational row vectors. -/
def IMat.toRows (A : IMat) : List (List ℚ) :=
  (List.range A.rows).map (fun r =>
    (List.range A.cols).map (fun c => (A.entry r c : ℚ)))

/-- The numerical rank of a boundary matrix (model of
`np.linalg.matrix_rank` at the fixed tolerance). -/
def numericalRank (A : IMat) : ℕ := rankQ A.cols A.toRows

/-- `homologyRankOnly(b1, b2)` from `src/simplicialHomology.py`:
ranks are computed only when the matrix has nonzero size (`b1.size > 0`,
with `size = rows * cols`), otherwise taken as 0; the result is
`b1.shape[1] - rankB1 - rankB2`. -/
def homologyRankOnly (b1 b2 : IMat) : ℤ :=
  let rankB1 : ℕ := if 0 < b1.rows * b1.cols then numericalRank b1 else 0
  let rankB2 : ℕ := if 0 < b2.rows * b2.cols then numericalRank b2 else 0
  (b1.cols : ℤ) - (rankB1 : ℤ) - (rankB2 : ℤ)

/-- Python's `sorted` on a simplex's vertex list (a stable comparison
sort; the result is the ascending reordering). -/
def sortSimplex (s : Simplex) : Simplex := s.insertionSort (· ≤ ·)

/-- `integerVertices(cplx1, cplx2)` from `src/simplicialHomology.py`:
rename all vertices occurring in either complex to contiguous integers.
Python enumerates the vertex set in unspecified `set` order; the model
uses first-occurrence order.  All downstream quantities are invariant
under the choice of this bijective relabelling. -/
def integerVertices (cplx1 cplx2 : Cplx) : Cplx × Cplx :=
  let cplx := cplx1 ++ cplx2
  let vertslist := (cplx.flatMap id).dedup
  (cplx1.map (List.map (fun v => vertslist.indexOf v)),
   cplx2.map (List.map (fun v => vertslist.indexOf v)))

/-- `simplicialHomology(k, X, Y, rankOnly=True)` from
`src/simplicialHomology.py` (the live game path always passes
`rankOnly=True`): renumber vertices, sort each simplex ascending, build
`D_k` and `D_{k+1}` and combine them by rank–nullity. -/
def simplicialHomology (k : ℕ) (X : Cplx) (Y : Option Cplx) : ℤ :=
  let XY := integerVertices X (Y.getD [])
  let Xs := XY.1.map sortSimplex
  let Ys := XY.2.map sortSimplex
  homologyRankOnly (boundary Xs k Ys) (boundary Xs (k + 1) Ys)

/-- `betti(index, xs, subspace)` from `src/topology.py`: convert the
pset complexes to lists (`lists_from_complex`, whose enumeration order is
unspecified and immaterial — the model takes the list directly) and call
`simplicialHomology` with `rankOnly=True`. -/
def betti (index : ℕ) (xs : Cplx) (subspace : Option Cplx) : ℤ :=
  simplicialHomology index xs subspace

/-! ## game.py -/

/-- The state read by `Game.string_from_homology`: the two territory
complexes (`self.blue`, `self.red`) and the two fixed base complexes
(`self.board.blue_base`, `self.board.red_base`). -/
structure Game where
  blue : Cplx
  red : Cplx
  blue_base : Cplx
  red_base : Cplx

/-- Line 46 of `src/game.py`:
`winner = "winner: blue!" if h1bb > h1b else "winner: red!" if h1rr > h1r else ""`. -/
def winner_string (g : Game) : String :=
  if betti 1 g.blue (some g.blue_base) > betti 1 g.blue none then
    "winner: blue!"
  else if betti 1 g.red (some g.red_base) > betti 1 g.red none then
    "winner: red!"
  else ""

/-- `Game.string_from_homology` from `src/game.py`: the Betti-number
table followed by the winner line. -/
def string_from_homology (g : Game) : String :=
  let h0b := betti 0 g.blue none
  let h1b := betti 1 g.blue none
  let h0r := betti 0 g.red none
  let h1r := betti 1 g.red none
  let h0bb := betti 0 g.blue (some g.blue_base)
  let h1bb := betti 1 g.blue (some g.blue_base)
  let h0rr := betti 0 g.red (some g.red_base)
  let h1rr := betti 1 g.red (some g.red_base)
  "betti    :\tdim=0\tdim=1\n" ++
  "------------------------------\n" ++
  "b(B)     :\t" ++ toString h0b ++ "\t" ++ toString h1b ++ "\n" ++
  "b(B,B_0) :\t" ++ toString h0bb ++ "\t" ++ toString h1bb ++ "\n" ++
  "b(R)     :\t" ++ toString h0r ++ "\t" ++ toString h1r ++ "\n" ++
  "b(R,R_0) :\t" ++ toString h0rr ++ "\t" ++ toString h1rr ++ "\n" ++
  "\n\n" ++
  winner_string g

/-- One entry of a matrix product `A * B` (numpy `dot`), summing over the
inner dimension `A.cols`. -/
def prodEntry (A B : IMat) (r c : ℕ) : ℤ :=
  ∑ m ∈ Finset.range A.cols, A.entry r m * B.entry m c

/-- The blue win condition tested on line 46 of `src/game.py`:
`h1bb > h1b`. -/
abbrev blue_wins (g : Game) : Prop :=
  betti 1 g.blue (some g.blue_base) > betti 1 g.blue none

/-- The red win condition tested on line 46 of `src/game.py`:
`h1rr > h1r`. -/
abbrev red_wins (g : Game) : Prop :=
  betti 1 g.red (some g.red_base) > betti 1 g.red none

/-- A game state in which both players have joined the two pieces of
their own base: each territory is two base points plus the edge joining
them, so each player's relative first Betti number (1) exceeds the
absolute one (0). -/
def gBoth : Game :=
  { blue := [[0], [1], [0, 1]], red := [[2], [3], [2, 3]],
    blue_base := [[0], [1]], red_base := [[2], [3]] }

/-- A game state in which only blue has joined their base pieces; red's
territory is exactly red's base. -/
def gBlue : Game :=
  { blue := [[0], [1], [0, 1]], red := [[2], [3]],
    blue_base := [[0], [1]], red_base := [[2], [3]] }

end VoronoiHex

namespace VoronoiHex

/-! ## Helper lemmas -/

/-- Rank of a matrix with no rows is zero. -/
theorem rankQ_nil (c : ℕ) : rankQ c [] = 0 := by
  induction c with
  | zero => rfl
  | succ c ih => show rankQ c [] = 0; exact ih

/-- Rank of a size-zero matrix (no rows or no columns) is zero. -/
theorem numericalRank_of_size_zero (A : IMat) (h : A.rows * A.cols = 0) :
    numericalRank A = 0 := by
  rcases Nat.mul_eq_zero.mp h with hr | hc
  · unfold numericalRank IMat.toRows
    rw [hr]
    simpa using rankQ_nil A.cols
  · unfold numericalRank
    rw [hc]
    rfl

/-- `faces_from_edges` rewritten as a function of the input's set value
and its apex (the first vertex of the first edge in iteration order). -/
theorem faces_from_edges_eq_image (es : List (List ℕ)) :
    faces_from_edges es =
      (((es.map List.toFinset).toFinset).filter
        (fun s => (es.headD []).headD 0 ∉ s)).image
        (insert ((es.headD []).headD 0)) := by
  ext x
  simp only [faces_from_edges, List.mem_toFinset, List.mem_map,
    List.mem_filter, decide_eq_true_eq, Finset.mem_image, Finset.mem_filter]
  constructor
  · rintro ⟨t, ⟨ht, hv⟩, rfl⟩
    exact ⟨t.toFinset, ⟨⟨t, ht, rfl⟩, by simpa using hv⟩, rfl⟩
  · rintro ⟨s, ⟨⟨t, ht, rfl⟩, hv⟩, rfl⟩
    exact ⟨t, ⟨ht, by simpa using hv⟩, rfl⟩

/-! ## Claims -/

/-- C2: for every pair of boundary matrices, the rank-only homology
computation returns the column count of `D_k` minus the rank of `D_k`
minus the rank of `D_{k+1}`; the `size > 0` guards in the code are
semantically redundant because the rank of a size-zero matrix is 0. -/
theorem homologyRankOnly_eq_rank_nullity (b1 b2 : IMat) :
    homologyRankOnly b1 b2 =
      (b1.cols : ℤ) - (numericalRank b1 : ℤ) - (numericalRank b2 : ℤ) := by
  unfold homologyRankOnly
  by_cases h1 : 0 < b1.rows * b1.cols <;> by_cases h2 : 0 < b2.rows * b2.cols
  · simp [h1, h2]
  · simp [h1, h2, numericalRank_of_size_zero b2 (Nat.eq_zero_of_not_pos h2)]
  · simp [h1, h2, numericalRank_of_size_zero b1 (Nat.eq_zero_of_not_pos h1)]
  · simp [h1, h2, numericalRank_of_size_zero b1 (Nat.eq_zero_of_not_pos h1),
      numericalRank_of_size_zero b2 (Nat.eq_zero_of_not_pos h2)]

/-- C4 counterexample: the empty simplex is a member of a closure, so
the claim "the empty set is never a member" fails on the code
(`more_itertools.powerset` yields the empty subset too). -/
theorem closure_contains_empty_simplex :
    (∅ : Finset ℕ) ∈ closure {({0} : Finset ℕ)} := by decide

/-- C4 (amended): `closure(X)` consists exactly of all subsets of the
simplices of `X`, the empty set included: `s ∈ closure X` iff `s` is a
subset of some simplex of `X`. -/
theorem mem_closure_iff (s : Finset ℕ) (X : Finset (Finset ℕ)) :
    s ∈ closure X ↔ ∃ t ∈ X, s ⊆ t := by
  simp [closure, Finset.mem_biUnion, Finset.mem_powerset]

/-- C5: closure is idempotent. -/
theorem closure_idempotent (X : Finset (Finset ℕ)) :
    closure (closure X) = closure X := by
  ext s
  simp only [closure, Finset.mem_biUnion, Finset.mem_powerset]
  constructor
  · rintro ⟨t, ⟨u, hu, htu⟩, hst⟩
    exact ⟨u, hu, hst.trans htu⟩
  · rintro ⟨u, hu, hsu⟩
    exact ⟨u, ⟨u, hu, Finset.Subset.refl u⟩, hsu⟩

/-- C8 counterexample: malformed inputs do not fail; both operations
silently return a complex.  A one-vertex cycle yields the singleton loop
`{{5}}`, and an edge set made of two disjoint triangles (not a single
simple cycle) yields the fan over the first triangle's apex. -/
theorem malformed_inputs_return_complexes :
    edges_from_cycle [5] = {({5} : Finset ℕ)} ∧
      faces_from_edges [[0, 1], [1, 2], [2, 0], [3, 4], [4, 5], [5, 3]] =
        {({0, 1, 2} : Finset ℕ), {0, 3, 4}, {0, 4, 5}, {0, 3, 5}} := by
  exact ⟨by decide, by decide⟩

/-- C8 (amended): no validation is performed and no `InvalidComplex`
condition exists.  `edges_from_cycle` on a cycle of fewer than 2
vertices returns a degenerate complex without signalling anything
(`[] ↦ ∅`, `[v] ↦ {{v}}`).  `faces_from_edges` never checks whether its
input is a single simple cycle: on every edge set whose apex
`first(first(es))` is retrievable it returns the fan
`{apex ∪ e : e ∈ es, apex ∉ e}` over that apex; the only malformed
inputs on which it fails at all are those with an empty edge list (or
an empty first edge), where `first` raises a generic `StopIteration`
(`apexOf es = none`), not a distinct `InvalidComplex`. -/
theorem malformed_inputs_behavior :
    (edges_from_cycle [] = (∅ : Finset (Finset ℕ)) ∧
      ∀ v : ℕ, edges_from_cycle [v] = {({v} : Finset ℕ)}) ∧
    (∀ es : List (List ℕ), ∀ v0 : ℕ, apexOf es = some v0 →
      faces_from_edges es =
        (((es.map List.toFinset).toFinset).filter
          (fun s => v0 ∉ s)).image (insert v0)) ∧
    (∀ es : List (List ℕ), apexOf es = none ↔ es.headD [] = []) := by
  refine ⟨⟨by decide, ?_⟩, ?_, ?_⟩
  · intro v
    simp [edges_from_cycle, edgeList, List.rotate, Finset.insert_idem]
  · intro es v0 h
    have hv : (es.headD []).headD 0 = v0 := by
      cases es with
      | nil => simp [apexOf, firstElem] at h
      | cons e rest =>
        cases e with
        | nil => simp [apexOf, firstElem] at h
        | cons v tl =>
          have hv0 : v = v0 := by simpa [apexOf, firstElem] using h
          exact hv0
    rw [faces_from_edges_eq_image es, hv]
  · intro es
    cases es with
    | nil => simp [apexOf, firstElem]
    | cons e rest =>
      cases e with
      | nil => simp [apexOf, firstElem]
      | cons v tl => simp [apexOf, firstElem]

/-- C8 witness: at the concrete two-triangle edge set (not a single
simple cycle) the apex is retrievable (`some 0`) and the output is the
fan over apex 0. -/
theorem malformed_inputs_behavior_witness :
    apexOf [[0, 1], [1, 2], [2, 0], [3, 4], [4, 5], [5, 3]] = some 0 ∧
      faces_from_edges [[0, 1], [1, 2], [2, 0], [3, 4], [4, 5], [5, 3]] =
        ((([[0, 1], [1, 2], [2, 0], [3, 4], [4, 5],
            [5, 3]].map List.toFinset).toFinset).filter
          (fun s => 0 ∉ s)).image (insert 0) :=
  ⟨by decide,
    malformed_inputs_behavior.2.1 _ 0 (by decide)⟩

/-- C7 counterexample: two inputs that are equal as sets of simplices
but listed in different iteration orders produce different face sets —
the apex is taken from iteration order, so the output is not a function
of the set value alone. -/
theorem faces_from_edges_order_sensitive :
    (([[0, 1], [1, 2], [2, 3], [3, 0]] : List (List ℕ)).map
        List.toFinset).toFinset =
      (([[1, 2], [0, 1], [2, 3], [3, 0]] : List (List ℕ)).map
        List.toFinset).toFinset ∧
    faces_from_edges [[0, 1], [1, 2], [2, 3], [3, 0]] ≠
      faces_from_edges [[1, 2], [0, 1], [2, 3], [3, 0]] := by
  exact ⟨by decide, by decide⟩

/-- C7 (amended): the output of `faces_from_edges` is a function of the
input's set value together with its apex (the first vertex of the first
edge in iteration order); two inputs agreeing on both produce the same
face set. -/
theorem faces_from_edges_apex_determined (es₁ es₂ : List (List ℕ))
    (hset : (es₁.map List.toFinset).toFinset = (es₂.map List.toFinset).toFinset)
    (hapex : (es₁.headD []).headD 0 = (es₂.headD []).headD 0) :
    faces_from_edges es₁ = faces_from_edges es₂ := by
  rw [faces_from_edges_eq_image, faces_from_edges_eq_image, hset, hapex]

/-- C7 witness: two differently-ordered presentations of the square's
edge set with the same apex produce the same faces. -/
theorem faces_from_edges_apex_determined_witness :
    (([[0, 1], [1, 2], [2, 3], [3, 0]] : List (List ℕ)).map
        List.toFinset).toFinset =
      (([[0, 1], [2, 3], [1, 2], [3, 0]] : List (List ℕ)).map
        List.toFinset).toFinset ∧
    faces_from_edges [[0, 1], [1, 2], [2, 3], [3, 0]] =
      faces_from_edges [[0, 1], [2, 3], [1, 2], [3, 0]] :=
  ⟨by decide,
    faces_from_edges_apex_determined _ _ (by decide) (by decide)⟩

/-- C1 counterexample: a game state where red's win condition holds but
the summary does not declare red the winner (blue's condition also holds
and takes priority in the chained conditional). -/
theorem winner_red_clause_fails :
    red_wins gBoth ∧ winner_string gBoth ≠ "winner: red!" := by
  exact ⟨by decide, by decide⟩

/-- C1 (amended): the summary declares blue the winner when blue's
relative first Betti number exceeds blue's absolute one; red only when
blue's condition fails and red's holds; and no winner when neither
condition holds. -/
theorem winner_rule (g : Game) :
    (blue_wins g → winner_string g = "winner: blue!") ∧
    (¬ blue_wins g ∧ red_wins g → winner_string g = "winner: red!") ∧
    (¬ blue_wins g ∧ ¬ red_wins g → winner_string g = "") := by
  refine ⟨fun hb => ?_, fun ⟨hnb, hr⟩ => ?_, fun ⟨hnb, hnr⟩ => ?_⟩
  · simp only [winner_string]
    rw [if_pos hb]
  · simp only [winner_string]
    rw [if_neg hnb, if_pos hr]
  · simp only [winner_string]
    rw [if_neg hnb, if_neg hnr]

/-- C1 witness: a state where blue's condition holds is declared a blue
win. -/
theorem winner_rule_witness :
    blue_wins gBlue ∧ winner_string gBlue = "winner: blue!" :=
  ⟨by decide, (winner_rule gBlue).1 (by decide)⟩

/-- C9: blue takes priority — when both win conditions hold the summary
declares blue, and the red message appears exactly when blue's condition
fails while red's holds. -/
theorem winner_blue_priority (g : Game) :
    (blue_wins g ∧ red_wins g → winner_string g = "winner: blue!") ∧
    (winner_string g = "winner: red!" ↔ ¬ blue_wins g ∧ red_wins g) := by
  by_cases hb : blue_wins g
  · refine ⟨fun _ => ?_, ?_⟩
    · simp only [winner_string]; rw [if_pos hb]
    · constructor
      · intro h
        simp only [winner_string] at h
        rw [if_pos hb] at h
        exact absurd h (by decide)
      · rintro ⟨hnb, _⟩; exact absurd hb hnb
  · by_cases hr : red_wins g
    · refine ⟨fun ⟨hb', _⟩ => absurd hb' hb, ?_⟩
      constructor
      · intro _; exact ⟨hb, hr⟩
      · intro _
        simp only [winner_string]
        rw [if_neg hb, if_pos hr]
    · refine ⟨fun ⟨hb', _⟩ => absurd hb' hb, ?_⟩
      constructor
      · intro h
        simp only [winner_string] at h
        rw [if_neg hb, if_neg hr] at h
        exact absurd h (by decide)
      · rintro ⟨_, hr'⟩; exact absurd hr' hr

/-- C9 witness: at the concrete state where both conditions hold, the
summary declares blue. -/
theorem winner_blue_priority_witness :
    (blue_wins gBoth ∧ red_wins gBoth) ∧
      winner_string gBoth = "winner: blue!" :=
  ⟨⟨by decide, by decide⟩, (winner_blue_priority gBoth).1 ⟨by decide, by decide⟩⟩

/-- The windowed edge list has one entry per cycle vertex. -/
theorem edgeList_length (c : List ℕ) : (edgeList c).length = c.length := by
  simp [edgeList, List.length_zip]

/-- Entry `i` of the windowed edge list is the unordered pair of the two
cyclically consecutive vertices at positions `i` and `(i+1) % n`. -/
theorem edgeList_get (c : List ℕ) (i : ℕ) (hi : i < c.length) :
    (edgeList c).get ⟨i, (edgeList_length c) ▸ hi⟩ =
      {c.get ⟨i, hi⟩,
       c.get ⟨(i + 1) % c.length, Nat.mod_lt _ (Nat.zero_lt_of_lt hi)⟩} := by
  have hz : i < (c.zip (c.rotate 1)).length := by
    simp [List.length_zip, hi]
  have hr : i < (c.rotate 1).length := by
    simpa [List.length_rotate] using hi
  simp only [edgeList, List.get_eq_getElem, List.getElem_map, List.getElem_zip]
  have h2 : (c.rotate 1)[i] =
      c.get ⟨(i + 1) % c.length, Nat.mod_lt _ (Nat.zero_lt_of_lt hi)⟩ := by
    rw [← List.get_eq_getElem (c.rotate 1) ⟨i, hr⟩, List.get_rotate]
  rw [h2]
  rfl

/-- C6: for a cycle of `n ≥ 3` distinct vertices, `edges_from_cycle`
returns exactly `n` edges, and every edge is an unordered pair of two
cyclically consecutive vertices (wrap-around included). -/
theorem edges_from_cycle_spec (c : List ℕ) (hlen : 3 ≤ c.length)
    (hnd : c.Nodup) :
    (edges_from_cycle c).card = c.length ∧
      ∀ e ∈ edges_from_cycle c, ∃ i < c.length,
        e = {c.getD i 0, c.getD ((i + 1) % c.length) 0} := by
  have hn : 0 < c.length := by omega
  have hinj := List.nodup_iff_injective_get.mp hnd
  -- positional injectivity of the windowed edges
  have key : ∀ i j : ℕ, ∀ hi : i < c.length, ∀ hj : j < c.length,
      (edgeList c).get ⟨i, (edgeList_length c) ▸ hi⟩ =
        (edgeList c).get ⟨j, (edgeList_length c) ▸ hj⟩ → i = j := by
    intro i j hi hj h
    rw [edgeList_get c i hi, edgeList_get c j hj] at h
    by_contra hne
    have hmem_i : c.get ⟨i, hi⟩ ∈
        ({c.get ⟨j, hj⟩,
          c.get ⟨(j + 1) % c.length, Nat.mod_lt _ hn⟩} : Finset ℕ) := by
      rw [← h]; simp
    have hmem_j : c.get ⟨j, hj⟩ ∈
        ({c.get ⟨i, hi⟩,
          c.get ⟨(i + 1) % c.length, Nat.mod_lt _ hn⟩} : Finset ℕ) := by
      rw [h]; simp
    simp only [Finset.mem_insert, Finset.mem_singleton] at hmem_i hmem_j
    have hi' : i = j ∨ i = (j + 1) % c.length := by
      rcases hmem_i with h1 | h1
      · exact Or.inl (congrArg Fin.val (hinj h1))
      · exact Or.inr (congrArg Fin.val (hinj h1))
    have hj' : j = i ∨ j = (i + 1) % c.length := by
      rcases hmem_j with h1 | h1
      · exact Or.inl (congrArg Fin.val (hinj h1))
      · exact Or.inr (congrArg Fin.val (hinj h1))
    rcases hi' with h1 | h1
    · exact hne h1
    rcases hj' with h2 | h2
    · exact hne h2.symm
    -- i = (j+1) % n and j = (i+1) % n with n ≥ 3: impossible
    rcases Nat.lt_or_ge (j + 1) c.length with hlt | hge
    · rw [Nat.mod_eq_of_lt hlt] at h1
      subst h1
      rcases Nat.lt_or_ge (j + 1 + 1) c.length with hlt2 | hge2
      · rw [Nat.mod_eq_of_lt hlt2] at h2
        omega
      · have heq : j + 1 + 1 = c.length := by omega
        rw [← heq, Nat.mod_self] at h2
        omega
    · have hone : j + 1 = c.length := by omega
      rw [hone, Nat.mod_self] at h1
      subst h1
      rw [Nat.mod_eq_of_lt (by omega)] at h2
      omega
  constructor
  · rw [edges_from_cycle, List.toFinset_card_of_nodup, edgeList_length]
    rw [List.nodup_iff_injective_get]
    intro a b hab
    have ha : (a : ℕ) < c.length := (edgeList_length c) ▸ a.isLt
    have hb : (b : ℕ) < c.length := (edgeList_length c) ▸ b.isLt
    apply Fin.ext
    exact key a b ha hb hab
  · intro e he
    rw [edges_from_cycle, List.mem_toFinset, List.mem_iff_get] at he
    obtain ⟨idx, hidx⟩ := he
    have hi : (idx : ℕ) < c.length := (edgeList_length c) ▸ idx.isLt
    refine ⟨idx, hi, ?_⟩
    have hmod : ((idx : ℕ) + 1) % c.length < c.length := Nat.mod_lt _ hn
    have h1 : c.getD (idx : ℕ) 0 = c.get ⟨idx, hi⟩ := by
      rw [List.getD_eq_getElem c 0 hi]; rfl
    have h2 : c.getD (((idx : ℕ) + 1) % c.length) 0 =
        c.get ⟨((idx : ℕ) + 1) % c.length, hmod⟩ := by
      rw [List.getD_eq_getElem c 0 hmod]; rfl
    rw [h1, h2, ← hidx]
    exact edgeList_get c idx hi

/-- C6 witness: the triangle cycle `[0, 1, 2]` has exactly 3 edges. -/
theorem edges_from_cycle_spec_witness :
    (3 ≤ ([0, 1, 2] : List ℕ).length ∧ ([0, 1, 2] : List ℕ).Nodup) ∧
      (edges_from_cycle [0, 1, 2]).card = ([0, 1, 2] : List ℕ).length :=
  ⟨⟨by decide, by decide⟩,
    (edges_from_cycle_spec [0, 1, 2] (by decide) (by decide)).1⟩

/-- C10: on the empty complex, `betti` returns 0 for every index — both
absolutely and with an empty relative subspace — and the boundary
builder returns the 0-by-0 zero matrix. -/
theorem betti_empty_complex (k : ℕ) :
    betti k [] none = 0 ∧ betti k [] (some []) = 0 ∧
      boundary [] k [] = zerosMat 0 := by
  cases k <;> exact ⟨rfl, rfl, rfl⟩

/-! ## Chain-complex identity: helper lemmas -/

/-- Consecutive signs in `coefLst` are opposite. -/
theorem coefLst_succ (j : ℕ) : coefLst (j + 1) = - coefLst j := by
  unfold coefLst
  rcases Nat.mod_two_eq_zero_or_one j with h | h
  · have h2 : (j + 1) % 2 = 1 := by omega
    simp [h, h2]
  · have h2 : (j + 1) % 2 = 0 := by omega
    simp [h, h2]

/-- Removing position `j` and then position `i < j` is the same as
removing position `i` and then position `j - 1`. -/
theorem eraseIdx_eraseIdx_comm {α : Type} (l : List α) :
    ∀ i j : ℕ, i < j →
      (l.eraseIdx j).eraseIdx i = (l.eraseIdx i).eraseIdx (j - 1) := by
  induction l with
  | nil => intro i j _; simp [List.eraseIdx]
  | cons a l ih =>
    intro i j hij
    cases i with
    | zero =>
      cases j with
      | zero => omega
      | succ j => simp [List.eraseIdx]
    | succ i =>
      cases j with
      | zero => omega
      | succ j =>
        cases j with
        | zero => omega
        | succ j =>
          simp only [List.eraseIdx, Nat.add_sub_cancel, List.cons.injEq,
            true_and]
          simpa using ih i (j + 1) (by omega)

/-- On a duplicate-free list, distinct positions have distinct
`eraseIdx` results. -/
theorem eraseIdx_inj {α : Type} (l : List α) :
    ∀ i j : ℕ, l.Nodup → i < l.length → j < l.length →
      l.eraseIdx i = l.eraseIdx j → i = j := by
  induction l with
  | nil => intro i j _ hi _ _; simp at hi
  | cons a l ih =>
    intro i j hnd hi hj h
    cases i with
    | zero =>
      cases j with
      | zero => rfl
      | succ j =>
        exfalso
        simp only [List.eraseIdx] at h
        have ha : a ∈ l := by rw [h]; exact List.mem_cons_self a _
        exact (List.nodup_cons.mp hnd).1 ha
    | succ i =>
      cases j with
      | zero =>
        exfalso
        simp only [List.eraseIdx] at h
        have ha : a ∈ l := by rw [← h]; exact List.mem_cons_self a _
        exact (List.nodup_cons.mp hnd).1 ha
      | succ j =>
        simp only [List.eraseIdx, List.cons.injEq, true_and] at h
        have := ih i j (List.nodup_cons.mp hnd).2 (by simpa using hi)
          (by simpa using hj) h
        omega

/-- A left fold over `range n` that overwrites the accumulator whenever a
predicate holds equals the indicator sum, provided at most one index
satisfies the predicate (last-write semantics collapse to the unique
write). -/
theorem foldl_lastwrite {p : ℕ → Prop} [DecidablePred p] (g : ℕ → ℤ)
    (n : ℕ) (huniq : ∀ i j : ℕ, i < n → j < n → p i → p j → i = j) :
    (List.range n).foldl (fun acc i => if p i then g i else acc) 0 =
      ∑ i ∈ Finset.range n, (if p i then g i else 0) := by
  have H : ∀ m : ℕ, (∀ i j : ℕ, i < m → j < m → p i → p j → i = j) →
      (List.range m).foldl (fun acc i => if p i then g i else acc) 0 =
        ∑ i ∈ Finset.range m, (if p i then g i else 0) := by
    intro m
    induction m with
    | zero => intro _; rfl
    | succ m ih =>
      intro hu
      rw [List.range_succ, List.foldl_append, Finset.sum_range_succ]
      simp only [List.foldl_cons, List.foldl_nil]
      by_cases hp : p m
      · rw [if_pos hp, if_pos hp]
        have hzero : ∑ i ∈ Finset.range m, (if p i then g i else 0) = 0 := by
          apply Finset.sum_eq_zero
          intro i hi
          have hi' : i < m := Finset.mem_range.mp hi
          rw [if_neg]
          intro hpi
          have heq := hu i m (by omega) (by omega) hpi hp
          omega
        rw [hzero, zero_add]
      · rw [if_neg hp, if_neg hp, add_zero]
        exact ih (fun i j hi hj => hu i j (by omega) (by omega))
  exact H n huniq

/-- On a duplicate-free simplex of length `k+1`, the assignment loop
equals the signed indicator sum over its faces. -/
theorem entryFold_eq_sum (k : ℕ) (splx row : Simplex) (hnd : splx.Nodup)
    (hlen : splx.length = k + 1) :
    entryFold k splx row =
      ∑ i ∈ Finset.range (k + 1),
        (if splx.eraseIdx i = row then coefLst i else 0) := by
  unfold entryFold
  exact foldl_lastwrite coefLst (k + 1)
    (fun i j hi hj hpi hpj =>
      eraseIdx_inj splx i j hnd (by omega) (by omega)
        (hpi.trans hpj.symm))

/-- If no face of `splx` equals `row`, the assignment loop leaves the
entry at zero. -/
theorem entryFold_eq_zero (k : ℕ) (splx row : Simplex)
    (h : ∀ i : ℕ, i < k + 1 → splx.eraseIdx i ≠ row) :
    entryFold k splx row = 0 := by
  unfold entryFold
  rw [foldl_lastwrite coefLst (k + 1)
    (fun i j hi hj hpi _ => absurd hpi (h i hi))]
  apply Finset.sum_eq_zero
  intro i hi
  rw [if_neg (h i (Finset.mem_range.mp hi))]

/-- Summing an indicator on the entries of a duplicate-free list picks
out the (at most one) matching entry. -/
theorem sum_indicator_getD (f : List ℕ → ℤ) (ρ : List ℕ) :
    ∀ L : List (List ℕ), L.Nodup →
      (∑ m ∈ Finset.range L.length,
        (if L.getD m [] = ρ then f (L.getD m []) else 0)) =
        if ρ ∈ L then f ρ else 0 := by
  intro L
  induction L with
  | nil => intro _; simp
  | cons a L ih =>
    intro hnd
    rw [List.length_cons, Finset.sum_range_succ']
    have hs : ∀ m : ℕ, (a :: L).getD (m + 1) [] = L.getD m [] :=
      fun m => rfl
    have h0 : (a :: L).getD 0 [] = a := rfl
    simp only [hs, h0]
    rw [ih (List.nodup_cons.mp hnd).2]
    by_cases ha : a = ρ
    · subst ha
      have hnotL : a ∉ L := (List.nodup_cons.mp hnd).1
      rw [if_neg hnotL, if_pos rfl, if_pos (List.mem_cons_self a L),
        zero_add]
    · rw [if_neg ha]
      have hmem : (ρ ∈ a :: L) ↔ ρ ∈ L := by
        rw [List.mem_cons]
        constructor
        · rintro (h | h)
          · exact absurd h.symm ha
          · exact h
        · exact Or.inr
      by_cases hL : ρ ∈ L
      · rw [if_pos hL, if_pos (hmem.mpr hL), add_zero]
      · rw [if_neg hL, if_neg (fun h => hL (hmem.mp h)), add_zero]

/-- Membership in `ksimplices`: a sublist of some toplex, of the right
length, that was not excised by the relative complex. -/
theorem mem_ksimplices {X : Cplx} {k : ℕ} {Y : Cplx} {s : Simplex} :
    s ∈ ksimplices X k Y ↔
      ((∃ t ∈ X, s.Sublist t) ∧ s.length = k + 1) ∧ s ∉ Y := by
  unfold ksimplices
  rw [List.mem_dedup, List.mem_filter]
  simp only [List.mem_flatMap, List.mem_sublistsLen, decide_eq_true_eq]
  constructor
  · rintro ⟨⟨t, ht, hsub, hlen⟩, hy⟩
    exact ⟨⟨⟨t, ht, hsub⟩, hlen⟩, hy⟩
  · rintro ⟨⟨⟨t, ht, hsub⟩, hlen⟩, hy⟩
    exact ⟨⟨t, ht, hsub, hlen⟩, hy⟩

/-- The simplex list produced by `ksimplices` is duplicate-free (it goes
through Python's `set`). -/
theorem ksimplices_nodup (X : Cplx) (k : ℕ) (Y : Cplx) :
    (ksimplices X k Y).Nodup := by
  unfold ksimplices
  exact List.nodup_dedup _

/-- The alternating double sum over "remove position `j`, then position
`i`" vanishes: the faces-of-faces pair up with opposite signs.  This is
the combinatorial heart of the chain-complex identity; it does not need
any hypothesis on the lists. -/
theorem sum_eraseIdx_pairs_cancel (τ σ : List ℕ) :
    ∑ q ∈ Finset.range τ.length ×ˢ Finset.range (τ.length - 1),
      (if (τ.eraseIdx q.1).eraseIdx q.2 = σ then
        coefLst q.1 * coefLst q.2 else 0) = 0 := by
  set n := τ.length with hn
  set F : ℕ × ℕ → ℤ := fun q =>
    if (τ.eraseIdx q.1).eraseIdx q.2 = σ then
      coefLst q.1 * coefLst q.2 else 0 with hF
  rw [← Finset.sum_filter_add_sum_filter_not
    (Finset.range n ×ˢ Finset.range (n - 1)) (fun q => q.2 < q.1) F]
  have hbij :
      ∑ q ∈ (Finset.range n ×ˢ Finset.range (n - 1)).filter
          (fun q => ¬ q.2 < q.1), F q =
        ∑ q ∈ (Finset.range n ×ˢ Finset.range (n - 1)).filter
          (fun q => q.2 < q.1), (- F q) := by
    apply Finset.sum_nbij' (fun q => (q.2 + 1, q.1)) (fun q => (q.2, q.1 - 1))
    · intro q hq
      simp only [Finset.mem_filter, Finset.mem_product,
        Finset.mem_range] at hq ⊢
      omega
    · intro q hq
      simp only [Finset.mem_filter, Finset.mem_product,
        Finset.mem_range] at hq ⊢
      omega
    · intro q hq
      obtain ⟨q1, q2⟩ := q
      simp only [Finset.mem_filter, Finset.mem_product,
        Finset.mem_range] at hq
      have h1 : q2 + 1 - 1 = q2 := by omega
      rw [h1]
    · intro q hq
      obtain ⟨q1, q2⟩ := q
      simp only [Finset.mem_filter, Finset.mem_product,
        Finset.mem_range] at hq
      have h1 : q1 - 1 + 1 = q1 := by omega
      rw [h1]
    · intro q hq
      simp only [Finset.mem_filter, Finset.mem_product,
        Finset.mem_range] at hq
      show F q = - F (q.2 + 1, q.1)
      rw [hF]
      simp only
      rw [eraseIdx_eraseIdx_comm τ q.1 (q.2 + 1) (by omega),
        Nat.add_sub_cancel, coefLst_succ]
      by_cases hcond : (τ.eraseIdx q.1).eraseIdx q.2 = σ
      · rw [if_pos hcond, if_pos hcond]
        ring
      · rw [if_neg hcond, if_neg hcond]
        ring
  rw [hbij, ← Finset.sum_add_distrib]
  simp

/-- The composition of two consecutive nondegenerate boundary matrices
over the chains produced by `ksimplices` is entrywise zero, provided the
toplexes are canonically sorted and the excised set is closed under
taking (nonempty) faces. -/
theorem boundaryMatrix_comp_zero (X : Cplx) (k : ℕ) (Y : Cplx)
    (hX : ∀ t ∈ X, List.Sorted (· < ·) t)
    (hY : ∀ y ∈ Y, ∀ z : Simplex, z.Sublist y → z ≠ [] → z ∈ Y)
    (r c : ℕ) :
    ∑ m ∈ Finset.range (ksimplices X (k + 1) Y).length,
      (boundaryMatrix (ksimplices X k Y) (ksimplices X (k + 1) Y)
        (k + 1)).entry r m *
      (boundaryMatrix (ksimplices X (k + 1) Y) (ksimplices X (k + 2) Y)
        (k + 2)).entry m c = 0 := by
  set km1 := ksimplices X k Y with hkm1
  set kA := ksimplices X (k + 1) Y with hkA
  set kB := ksimplices X (k + 2) Y with hkB
  by_cases hr : r < km1.length
  case neg =>
    apply Finset.sum_eq_zero
    intro m _
    simp only [boundaryMatrix]
    rw [if_neg (fun h => hr h.1), zero_mul]
  by_cases hc : c < kB.length
  case neg =>
    apply Finset.sum_eq_zero
    intro m _
    simp only [boundaryMatrix]
    rw [if_neg (fun h : m < kA.length ∧ c < kB.length => hc h.2), mul_zero]
  have hσmem : km1.getD r [] ∈ km1 := by
    rw [List.getD_eq_getElem _ _ hr]; exact List.getElem_mem hr
  have hτmem : kB.getD c [] ∈ kB := by
    rw [List.getD_eq_getElem _ _ hc]; exact List.getElem_mem hc
  set σ := km1.getD r [] with hσ
  set τ := kB.getD c [] with hτ
  obtain ⟨⟨⟨tt, htt, hτsub⟩, hτlen⟩, hτY⟩ := mem_ksimplices.mp hτmem
  have hτsorted : List.Pairwise (· < ·) τ :=
    List.Pairwise.sublist hτsub (hX tt htt)
  have hτnd : τ.Nodup := hτsorted.imp (fun h => Nat.ne_of_lt h)
  obtain ⟨⟨_, hσlen⟩, hσY⟩ := mem_ksimplices.mp hσmem
  have hkAnd : kA.Nodup := ksimplices_nodup X (k + 1) Y
  have hterm : ∀ m ∈ Finset.range kA.length,
      (boundaryMatrix km1 kA (k + 1)).entry r m *
        (boundaryMatrix kA kB (k + 2)).entry m c =
      ∑ j ∈ Finset.range (k + 3),
        (if kA.getD m [] = τ.eraseIdx j then
          coefLst j * entryFold (k + 1) (kA.getD m []) σ else 0) := by
    intro m hm
    have hm' : m < kA.length := Finset.mem_range.mp hm
    simp only [boundaryMatrix]
    rw [if_pos ⟨hr, hm'⟩, if_pos ⟨hm', hc⟩]
    rw [entryFold_eq_sum (k + 2) τ (kA.getD m []) hτnd (by omega),
      Finset.mul_sum]
    apply Finset.sum_congr rfl
    intro j _
    by_cases hcnd : τ.eraseIdx j = kA.getD m []
    · rw [if_pos hcnd, if_pos hcnd.symm]
      ring
    · rw [if_neg hcnd, if_neg (fun h => hcnd h.symm), mul_zero]
  rw [Finset.sum_congr rfl hterm, Finset.sum_comm]
  have hswap : ∀ j ∈ Finset.range (k + 3),
      (∑ m ∈ Finset.range kA.length,
        (if kA.getD m [] = τ.eraseIdx j then
          coefLst j * entryFold (k + 1) (kA.getD m []) σ else 0)) =
      (if τ.eraseIdx j ∈ kA then
        coefLst j * entryFold (k + 1) (τ.eraseIdx j) σ else 0) := by
    intro j _
    exact sum_indicator_getD
      (fun x => coefLst j * entryFold (k + 1) x σ) (τ.eraseIdx j) kA hkAnd
  rw [Finset.sum_congr rfl hswap]
  have hstep2 : ∀ j ∈ Finset.range (k + 3),
      (if τ.eraseIdx j ∈ kA then
        coefLst j * entryFold (k + 1) (τ.eraseIdx j) σ else 0) =
      coefLst j * entryFold (k + 1) (τ.eraseIdx j) σ := by
    intro j hj
    have hj' : j < k + 3 := Finset.mem_range.mp hj
    by_cases hmem : τ.eraseIdx j ∈ kA
    · rw [if_pos hmem]
    · rw [if_neg hmem]
      have hρY : τ.eraseIdx j ∈ Y := by
        by_contra hρY
        apply hmem
        apply mem_ksimplices.mpr
        refine ⟨⟨⟨tt, htt, (List.eraseIdx_sublist τ j).trans hτsub⟩, ?_⟩, hρY⟩
        rw [List.length_eraseIdx, if_pos (by omega : j < τ.length)]
        omega
      have hzero : entryFold (k + 1) (τ.eraseIdx j) σ = 0 := by
        apply entryFold_eq_zero
        intro i _ hcontra
        have hσsub : σ.Sublist (τ.eraseIdx j) := by
          rw [← hcontra]; exact List.eraseIdx_sublist _ i
        have hσne : σ ≠ [] := by
          intro hnil
          rw [hnil] at hσlen
          simp at hσlen
        exact hσY (hY _ hρY σ hσsub hσne)
      rw [hzero, mul_zero]
  rw [Finset.sum_congr rfl hstep2]
  have hstep3 : ∀ j ∈ Finset.range (k + 3),
      coefLst j * entryFold (k + 1) (τ.eraseIdx j) σ =
      ∑ i ∈ Finset.range (k + 2),
        (if (τ.eraseIdx j).eraseIdx i = σ then
          coefLst j * coefLst i else 0) := by
    intro j hj
    have hj' : j < k + 3 := Finset.mem_range.mp hj
    have hjnd : (τ.eraseIdx j).Nodup :=
      (List.Pairwise.sublist (List.eraseIdx_sublist τ j) hτsorted).imp
        (fun h => Nat.ne_of_lt h)
    have hjlen : (τ.eraseIdx j).length = k + 2 := by
      rw [List.length_eraseIdx, if_pos (by omega : j < τ.length)]
      omega
    rw [entryFold_eq_sum (k + 1) (τ.eraseIdx j) σ hjnd hjlen,
      Finset.mul_sum]
    apply Finset.sum_congr rfl
    intro i _
    by_cases hcnd : (τ.eraseIdx j).eraseIdx i = σ
    · rw [if_pos hcnd, if_pos hcnd]
    · rw [if_neg hcnd, if_neg hcnd, mul_zero]
  rw [Finset.sum_congr rfl hstep3, ← Finset.sum_product']
  have hτl : τ.length = k + 3 := by omega
  have hcancel := sum_eraseIdx_pairs_cancel τ σ
  rw [hτl] at hcancel
  exact hcancel

/-- C3: the composed boundary operators are the zero map.  For every
complex given by canonically sorted toplexes, every dimension `k ≥ 1`,
and every relative subcomplex `Y` (one closed under taking nonempty
faces; `Y = []` models the absolute case), every entry of the matrix
product of `boundary(X, k, Y)` with `boundary(X, k+1, Y)` is zero —
including when rows for faces excised by `Y` are dropped. -/
theorem boundary_comp_zero (X : Cplx) (k : ℕ) (Y : Cplx)
    (hk : 1 ≤ k)
    (hX : ∀ t ∈ X, List.Sorted (· < ·) t)
    (hY : ∀ y ∈ Y, ∀ z : Simplex, z.Sublist y → z ≠ [] → z ∈ Y)
    (r c : ℕ) :
    prodEntry (boundary X k Y) (boundary X (k + 1) Y) r c = 0 := by
  cases k with
  | zero => omega
  | succ k =>
    by_cases hdegA : ksimplices X (k + 1) Y = [] ∨ ksimplices X k Y = []
    · unfold prodEntry
      apply Finset.sum_eq_zero
      intro m _
      have hA : boundary X (k + 1) Y =
          zerosMat (ksimplices X (k + 1) Y).length := by
        simp only [boundary]
        rw [if_pos hdegA]
      rw [hA]
      show (0 : ℤ) * _ = 0
      rw [zero_mul]
    · by_cases hdegB : ksimplices X (k + 2) Y = [] ∨
          ksimplices X (k + 1) Y = []
      · unfold prodEntry
        apply Finset.sum_eq_zero
        intro m _
        have hB : boundary X (k + 1 + 1) Y =
            zerosMat (ksimplices X (k + 1 + 1) Y).length := by
          simp only [boundary]
          rw [if_pos hdegB]
        rw [hB]
        show _ * (0 : ℤ) = 0
        rw [mul_zero]
      · have hA : boundary X (k + 1) Y =
            boundaryMatrix (ksimplices X k Y) (ksimplices X (k + 1) Y)
              (k + 1) := by
          simp only [boundary]
          rw [if_neg hdegA]
        have hB : boundary X (k + 1 + 1) Y =
            boundaryMatrix (ksimplices X (k + 1) Y) (ksimplices X (k + 2) Y)
              (k + 2) := by
          simp only [boundary]
          rw [if_neg hdegB]
        unfold prodEntry
        rw [hA, hB]
        exact boundaryMatrix_comp_zero X k Y hX hY r c

/-- C3 witness: a single filled triangle, absolute homology, entry
`(0, 0)` of the product of the two boundary matrices. -/
theorem boundary_comp_zero_witness :
    ((1 : ℕ) ≤ 1 ∧ (∀ t ∈ ([[0, 1, 2]] : Cplx), List.Sorted (· < ·) t) ∧
      (∀ y ∈ ([] : Cplx), ∀ z : Simplex, z.Sublist y → z ≠ [] → z ∈ [])) ∧
    prodEntry (boundary [[0, 1, 2]] 1 []) (boundary [[0, 1, 2]] 2 []) 0 0 = 0 :=
  ⟨⟨by decide, by decide, by simp⟩,
    boundary_comp_zero [[0, 1, 2]] 1 [] (by decide) (by decide) (by simp) 0 0⟩

end VoronoiHex
